import Mathlib

/-!
Verification of the cache-line best-effort field randomizer
(`clang/lib/AST/LayoutFieldRandomizer.cpp`).

The development embeds the data model and the algorithm of the source file:
the `Bucket` / `BitfieldRun` group primitive, the bucketing loop of
`perfrandomize` (one iteration per `pstep`, the `while` loop as fuel
recursion `ploopF`), the seeded shuffles, and the public entry point
`rearrange`.  Theorems at the end settle the specification claims.
-/

namespace Randstruct

/-- Member descriptor: models a `FieldDecl *` as seen by the randomizer.
`id` is the opaque identity of the declaration, `isBitField` models
`FieldDecl::isBitField()`, and `width` models the externally resolved
`ctx.getTypeInfo(f->getType()).Width` for the field. -/
structure FieldDecl where
  id : Nat
  isBitField : Bool
  width : Nat
deriving DecidableEq, Repr

instance : Inhabited FieldDecl := ⟨⟨0, false, 0⟩⟩

/-- `const size_t CACHE_LINE = 64` from the source. -/
def CACHE_LINE : Nat := 64

/-- A bucket; `isBitfieldRun` is the dynamic type (`Bucket` vs
`BitfieldRun`, the source's virtual `isBitfieldRun()`), `size` the
accumulated size, `fields` the stored fields in insertion order. -/
structure Bucket where
  isBitfieldRun : Bool
  size : Nat
  fields : List FieldDecl
deriving DecidableEq, Repr

/-- `Bucket::add(field, size)`. -/
def Bucket.add (b : Bucket) (f : FieldDecl) (sz : Nat) : Bucket :=
  ⟨b.isBitfieldRun, b.size + sz, b.fields ++ [f]⟩

/-- `Bucket::empty()`: `size == 0`. -/
def Bucket.empty (b : Bucket) : Bool := b.size == 0

/-- Virtual `canFit`: `BitfieldRun::canFit` returns `true` for any size;
`Bucket::canFit` admits when empty or when `size + sz <= CACHE_LINE`. -/
def Bucket.canFit (b : Bucket) (sz : Nat) : Bool :=
  if b.isBitfieldRun then true
  else b.empty || decide (b.size + sz ≤ CACHE_LINE)

/-- `Bucket::full()` (not virtual, shared by both variants):
`size >= CACHE_LINE`. -/
def Bucket.full (b : Bucket) : Bool := decide (CACHE_LINE ≤ b.size)

/-- One step of the pseudo-random engine.  `std::default_random_engine`
is implementation-defined by the C++ standard; the model fixes a concrete
linear congruential step and keeps the property the algorithm relies on:
the stream is a pure function of the seed. -/
def lcg (x : Nat) : Nat := (x * 48271 + 12345) % 2147483647

/-- Derivation of the engine seed from the configured seed string; models
`std::seed_seq Seq(RandstructSeed.begin(), RandstructSeed.end())`
feeding `std::default_random_engine{Seq}`: a pure function of the
characters of the string. -/
def seedOfString (s : String) : Nat :=
  s.foldl (fun a c => (a * 31 + c.toNat + 1) % 2147483647) 7

/-- Fisher-Yates by extraction, modelling `std::shuffle(first, last, rng)`:
at each step a position of the remaining list is drawn from the engine and
that element is emitted.  The fuel argument equals the list length at the
top call. -/
def shuffleGo {α : Type} : Nat → Nat → List α → List α
  | 0, _, _ => []
  | _ + 1, _, [] => []
  | n + 1, g, x :: xs =>
      let i := g % (x :: xs).length
      (x :: xs).getD i x :: shuffleGo n (lcg g) ((x :: xs).eraseIdx i)

/-- A fresh engine is seeded from the seed string and the sequence is
shuffled with it; models the `seed_seq` / `default_random_engine` /
`std::shuffle` triple that every shuffle site of the source repeats. -/
def shuffleWith {α : Type} (seed : String) (l : List α) : List α :=
  shuffleGo l.length (seedOfString seed) l

/-- Virtual `randomize`: `BitfieldRun::randomize` returns the fields
unchanged; `Bucket::randomize` shuffles them with a fresh engine seeded
from the seed string. -/
def Bucket.randomize (b : Bucket) (seed : String) : List FieldDecl :=
  if b.isBitfieldRun then b.fields else shuffleWith seed b.fields

/-- The mutable state of the `while` loop in `perfrandomize`: the work
queue `fields`, the sealed `buckets` (entries are `Option` because the
source stores `std::unique_ptr<Bucket>` and the escape branch pushes
`currentBucket` without a null check), the open `currentBucket` and
`currentBitfieldRun`, and the `skipped` counter. -/
structure PState where
  queue : List FieldDecl
  buckets : List (Option Bucket)
  cur : Option Bucket
  run : Option Bucket
  skipped : Nat
deriving Repr

/-- `llvm::make_unique<Bucket>()`: value-initialized, so `size = 0`. -/
def newBucket : Bucket := ⟨false, 0, []⟩

/-- `llvm::make_unique<BitfieldRun>()`. -/
def newBitfieldRun : Bucket := ⟨true, 0, []⟩

/-- `optTie ob` is the list of buckets appended when tying off an
optional open bucket (`if (currentBucket) buckets.push_back(...)`). -/
def optTie (ob : Option Bucket) : List (Option Bucket) :=
  match ob with
  | some b => [some b]
  | none => []

/-- The escape check opening each loop iteration:
`if (skipped >= fields.size()) { skipped = 0; buckets.push_back(std::move(currentBucket)); }`.
Note the source pushes `currentBucket` without a null check. -/
def escapeStep (s : PState) : PState :=
  if s.queue.length ≤ s.skipped then
    ⟨s.queue, s.buckets ++ [s.cur], none, s.run, 0⟩
  else s

/-- The placement of the front field `f` (queue `f :: rest`) after the
escape check: a bit-field joins (or starts) the bit-field run; otherwise
the run (if open) is sealed, a generic bucket is opened if needed, and
the field is added when `canFit` allows (sealing the bucket when it is
now `full`), or moved to the back of the queue with `skipped`
incremented. -/
def placeStep (f : FieldDecl) (rest : List FieldDecl)
    (bks : List (Option Bucket)) (cur run : Option Bucket) (sk : Nat) : PState :=
  if f.isBitField then
    ⟨rest, bks, cur, some ((run.getD newBitfieldRun).add f 1), sk⟩
  else
    if (cur.getD newBucket).canFit f.width then
      if ((cur.getD newBucket).add f f.width).full then
        ⟨rest, (bks ++ optTie run) ++ [some ((cur.getD newBucket).add f f.width)],
          none, none, 0⟩
      else
        ⟨rest, bks ++ optTie run, some ((cur.getD newBucket).add f f.width),
          none, sk⟩
    else
      ⟨rest ++ [f], bks ++ optTie run, some (cur.getD newBucket), none, sk + 1⟩

/-- One iteration of the `while (!fields.empty())` loop of
`perfrandomize`: the escape check followed by the placement of the front
field. -/
def pstep (f : FieldDecl) (rest : List FieldDecl) (bks : List (Option Bucket))
    (cur run : Option Bucket) (sk : Nat) : PState :=
  let t := escapeStep ⟨f :: rest, bks, cur, run, sk⟩
  placeStep f rest t.buckets t.cur t.run t.skipped

/-- The `while` loop as fuel recursion: `none` means the fuel ran out
before the queue emptied.  `ploopF_isSome` below proves that quadratic
fuel always suffices, which is the termination claim for the loop. -/
def ploopF : Nat → PState → Option PState
  | 0, _ => none
  | n + 1, s =>
    match s.queue with
    | [] => some s
    | f :: rest => ploopF n (pstep f rest s.buckets s.cur s.run s.skipped)

/-- Termination measure for the loop: lexicographic
`(queue length, queue length - skipped)` scalarized. -/
def pmeasure (s : PState) : Nat :=
  s.queue.length * (s.queue.length + 2) + (s.queue.length - s.skipped)

/-- The loop state on entry to `perfrandomize`. -/
def initState (fs : List FieldDecl) : PState := ⟨fs, [], none, none, 0⟩

/-- The loop state after the `while` loop of `perfrandomize` has run to
completion (the fuel is sufficient by `ploopF_isSome`; the dead `none`
arm returns the entry state). -/
def partitionResult (fs : List FieldDecl) : PState :=
  match ploopF (pmeasure (initState fs) + 1) (initState fs) with
  | some t => t
  | none => initState fs

/-- The sealed bucket sequence of `perfrandomize` after the loop and the
two tie-offs (`currentBucket` first, then `currentBitfieldRun`). -/
def partitionBuckets (fs : List FieldDecl) : List (Option Bucket) :=
  (partitionResult fs).buckets ++ optTie (partitionResult fs).cur ++
    optTie (partitionResult fs).run

/-- `bucket->randomize()` on a stored bucket pointer.  On `none` the C++
would dereference a null pointer; the model returns `[]` there and the
theorem for the null-safety claim proves the arm unreachable. -/
def finalizeOpt (seed : String) (ob : Option Bucket) : List FieldDecl :=
  match ob with
  | some b => b.randomize seed
  | none => []

/-- `perfrandomize`: partition into buckets, shuffle the bucket order
with a fresh engine from the seed, then flatten each bucket's
`randomize()` result in order. -/
def perfrandomize (seed : String) (fs : List FieldDecl) : List FieldDecl :=
  ((shuffleWith seed (partitionBuckets fs)).map (finalizeOpt seed)).flatten

/-- `rearrange`: the public entry point, forwards to `perfrandomize`. -/
def rearrange (seed : String) (fs : List FieldDecl) : List FieldDecl :=
  perfrandomize seed fs

/-- The index permutation a shuffle applies to any sequence of length
`n`: the image of `List.range n` under the same engine stream. -/
def shufflePerm (seed : String) (n : Nat) : List Nat :=
  shuffleWith seed (List.range n)

/-- The fields stored in an optional bucket slot. -/
def obFields (ob : Option Bucket) : List FieldDecl :=
  match ob with
  | some b => b.fields
  | none => []

/-- All fields stored in a sealed bucket list, in order. -/
def bucketsFields (l : List (Option Bucket)) : List FieldDecl :=
  (l.map obFields).flatten

/-- The multiset of all fields held anywhere in the loop state. -/
def stMset (s : PState) : Multiset FieldDecl :=
  (s.queue : Multiset FieldDecl) + (bucketsFields s.buckets : Multiset FieldDecl)
    + (obFields s.cur : Multiset FieldDecl) + (obFields s.run : Multiset FieldDecl)

/-- Total width of a field list (the claim-side reading of `size`). -/
def sumW (l : List FieldDecl) : Nat := (l.map fun f => f.width).sum

/-- Number of positive-width fields in a list. -/
def posW (l : List FieldDecl) : Nat :=
  (l.filter fun f => decide (0 < f.width)).length

/-- The field lists of the bit-field-run buckets of a bucket list,
in order. -/
def runsOf (l : List (Option Bucket)) : List (List FieldDecl) :=
  l.filterMap fun ob =>
    match ob with
    | some b => if b.isBitfieldRun then some b.fields else none
    | none => none

/-- The maximal runs of consecutive bit-field members of a list, in
order (the claim-side notion for the bit-field adjacency law). -/
def bfRuns (l : List FieldDecl) : List (List FieldDecl) :=
  match l with
  | [] => []
  | f :: rest =>
    if f.isBitField then
      (f :: rest.takeWhile fun g => g.isBitField) ::
        bfRuns (rest.dropWhile fun g => g.isBitField)
    else bfRuns rest
termination_by l.length
decreasing_by
  · have hd := List.Sublist.length_le
      (List.dropWhile_sublist (l := rest) (fun g => g.isBitField))
    simp only [List.length_cons]
    omega
  · simp only [List.length_cons]
    omega


/-- The runs still to be produced, given the open run bucket and the
untouched part `rem` of the queue: an open run continues with the
bit-field prefix of `rem`; afterwards the runs of the remainder follow. -/
def pendingRuns (run : Option Bucket) (rem : List FieldDecl) :
    List (List FieldDecl) :=
  match run with
  | some rb => (rb.fields ++ rem.takeWhile fun g => g.isBitField) ::
      bfRuns (rem.dropWhile fun g => g.isBitField)
  | none => bfRuns rem

/-- The loop invariant of `perfrandomize`, relative to the original
input `fs`: the multiset of all held fields is exactly `fs`; the queue
splits into an untouched part and skipped non-bit-fields, with the runs
bookkeeping equation; the open run is tagged as a run; a positive skip
counter implies an open generic bucket; the open generic bucket is below
capacity with `size` the sum of widths; sealed buckets are non-null; and
sealed generic buckets obey the capacity law. -/
structure Inv (fs : List FieldDecl) (s : PState) : Prop where
  mset : stMset s = (fs : Multiset FieldDecl)
  runsEq : ∃ rem skp, s.queue = rem ++ skp ∧
      (∀ x ∈ skp, x.isBitField = false) ∧
      runsOf s.buckets ++ pendingRuns s.run rem = bfRuns fs
  runTag : ∀ b, s.run = some b → b.isBitfieldRun = true
  skcur : s.skipped ≠ 0 → s.cur.isSome = true
  curok : ∀ b, s.cur = some b → b.isBitfieldRun = false ∧
      b.size < CACHE_LINE ∧ b.size = sumW b.fields
  noneFree : ∀ ob ∈ s.buckets, ob.isSome = true
  sealedok : ∀ b, some b ∈ s.buckets → b.isBitfieldRun = false →
      b.size = sumW b.fields ∧
        (b.size ≤ CACHE_LINE ∨ (CACHE_LINE < b.size ∧ posW b.fields = 1))

/-! ### Shuffle lemmas -/

theorem perm_getD_cons_eraseIdx {α : Type} :
    ∀ (l : List α) (i : Nat) (d : α), i < l.length →
      (l.getD i d :: l.eraseIdx i).Perm l := by
  intro l
  induction l with
  | nil => intro i d h; simp at h
  | cons x xs ih =>
    intro i d h
    cases i with
    | zero => simp
    | succ j =>
      have hj : j < xs.length := by simpa using h
      have h1 : (xs.getD j d :: x :: xs.eraseIdx j).Perm
          (x :: xs.getD j d :: xs.eraseIdx j) := List.Perm.swap x (xs.getD j d) _
      have h2 : (x :: xs.getD j d :: xs.eraseIdx j).Perm (x :: xs) :=
        List.Perm.cons x (ih j d hj)
      simpa using h1.trans h2

theorem shuffleGo_perm {α : Type} :
    ∀ (n g : Nat) (l : List α), l.length ≤ n → (shuffleGo n g l).Perm l := by
  intro n
  induction n with
  | zero =>
    intro g l h
    have : l = [] := List.length_eq_zero.mp (Nat.le_zero.mp h)
    subst this; simp [shuffleGo]
  | succ m ih =>
    intro g l h
    match l with
    | [] => simp [shuffleGo]
    | x :: xs =>
      set l0 := x :: xs with hl0
      have hi : g % l0.length < l0.length :=
        Nat.mod_lt _ (by simp [hl0])
      have hlen : (l0.eraseIdx (g % l0.length)).length ≤ m := by
        rw [List.length_eraseIdx_of_lt hi]
        have := h; simp [hl0] at this ⊢; omega
      have hrec := ih (lcg g) (l0.eraseIdx (g % l0.length)) hlen
      have hstep := perm_getD_cons_eraseIdx l0 (g % l0.length) x hi
      have heq : shuffleGo (m + 1) g l0
          = l0.getD (g % l0.length) x :: shuffleGo m (lcg g)
              (l0.eraseIdx (g % l0.length)) := by rw [hl0, shuffleGo]
      rw [heq]
      exact (List.Perm.cons _ hrec).trans hstep

theorem shuffleWith_perm {α : Type} (seed : String) (l : List α) :
    (shuffleWith seed l).Perm l :=
  shuffleGo_perm _ _ _ (Nat.le_refl _)

theorem eraseIdx_map {α β : Type} (φ : α → β) :
    ∀ (l : List α) (i : Nat), (l.map φ).eraseIdx i = (l.eraseIdx i).map φ := by
  intro l
  induction l with
  | nil => intro i; simp
  | cons x xs ih =>
    intro i
    cases i with
    | zero => simp
    | succ j => simp [ih j]

theorem shuffleGo_map {α β : Type} (φ : α → β) :
    ∀ (n g : Nat) (l : List α),
      shuffleGo n g (l.map φ) = (shuffleGo n g l).map φ := by
  intro n
  induction n with
  | zero => intro g l; simp [shuffleGo]
  | succ m ih =>
    intro g l
    match l with
    | [] => simp [shuffleGo]
    | x :: xs =>
      have hlen : ((x :: xs).map φ).length = (x :: xs).length := by simp
      have hi : g % (x :: xs).length < (x :: xs).length :=
        Nat.mod_lt _ (by simp)
      rw [List.map_cons]
      rw [shuffleGo, shuffleGo]
      have hgetD : (φ x :: xs.map φ).getD (g % (φ x :: xs.map φ).length) (φ x)
          = φ ((x :: xs).getD (g % (x :: xs).length) x) := by
        have hlen2 : (φ x :: xs.map φ).length = (x :: xs).length := by simp
        rw [hlen2, ← List.map_cons φ x xs, List.getD_map]
      have herase : (φ x :: xs.map φ).eraseIdx (g % (φ x :: xs.map φ).length)
          = ((x :: xs).eraseIdx (g % (x :: xs).length)).map φ := by
        have hlen2 : (φ x :: xs.map φ).length = (x :: xs).length := by simp
        rw [hlen2, ← List.map_cons φ x xs, eraseIdx_map]
      rw [hgetD, herase, ih, List.map_cons]

theorem map_getD_range {α : Type} (l : List α) (d : α) :
    l = (List.range l.length).map (fun i => l.getD i d) := by
  apply List.ext_getElem
  · simp
  · intro i h1 h2
    simp only [List.getElem_map, List.getElem_range]
    exact (List.getD_eq_getElem l d h1).symm

/-- Any shuffle is the application of the length-indexed index
permutation `shufflePerm`: position `k` of the output holds the input
element at position `(shufflePerm seed n).getD k _`. -/
theorem shuffleWith_eq_map_shufflePerm {α : Type} [Inhabited α]
    (seed : String) (l : List α) :
    shuffleWith seed l =
      (shufflePerm seed l.length).map (fun i => l.getD i default) := by
  conv_lhs => rw [map_getD_range l default]
  unfold shuffleWith shufflePerm
  rw [List.length_map, List.length_range, shuffleGo_map]
  simp [shuffleWith, List.length_range]

/-! ### Termination of the bucketing loop -/

theorem canFit_newBucket (sz : Nat) : newBucket.canFit sz = true := by
  simp [Bucket.canFit, Bucket.empty, newBucket]

theorem escapeStep_queue (s : PState) : (escapeStep s).queue = s.queue := by
  unfold escapeStep; split <;> rfl

theorem escapeStep_run (s : PState) : (escapeStep s).run = s.run := by
  unfold escapeStep; split <;> rfl

/-- Each loop iteration strictly decreases the measure: the placed field
leaves the queue, or (skip branch) `skipped` grows while staying below
the queue length. -/
theorem pmeasure_pstep (f : FieldDecl) (rest : List FieldDecl)
    (bks : List (Option Bucket)) (cur run : Option Bucket) (sk : Nat) :
    pmeasure (pstep f rest bks cur run sk) <
      pmeasure ⟨f :: rest, bks, cur, run, sk⟩ := by
  have hkey : (rest.length + 1) * (rest.length + 1 + 2) =
      rest.length * (rest.length + 2) + (2 * rest.length + 3) := by ring
  unfold pstep
  by_cases he : (f :: rest).length ≤ sk
  · -- escape fired: cur becomes none, skipped becomes 0
    have ht : escapeStep ⟨f :: rest, bks, cur, run, sk⟩ =
        ⟨f :: rest, bks ++ [cur], none, run, 0⟩ := by
      unfold escapeStep; simp only [he, if_pos]
    rw [ht]
    unfold placeStep
    by_cases hbf : f.isBitField = true
    · simp only [hbf, if_pos, pmeasure, List.length_cons]
      omega
    · simp only [hbf, Bool.false_eq_true, if_false]
      simp only [Option.getD_none, canFit_newBucket, if_pos]
      split
      · simp only [pmeasure, List.length_cons]; omega
      · simp only [pmeasure, List.length_cons]; omega
  · have ht : escapeStep ⟨f :: rest, bks, cur, run, sk⟩ =
        ⟨f :: rest, bks, cur, run, sk⟩ := by
      unfold escapeStep
      simp only [List.length_cons]
      simp only [List.length_cons] at he
      simp [he]
    rw [ht]
    unfold placeStep
    by_cases hbf : f.isBitField = true
    · simp only [hbf, if_pos, pmeasure, List.length_cons]
      omega
    · simp only [hbf, Bool.false_eq_true, if_false]
      split
      · split
        · simp only [pmeasure, List.length_cons]; omega
        · simp only [pmeasure, List.length_cons]; omega
      · -- skip branch: skipped < queue length since the escape did not fire
        simp only [pmeasure, List.length_cons, List.length_append,
          List.length_nil, Nat.zero_add]
        simp only [List.length_cons] at he
        omega

/-- Quadratic fuel suffices: the loop always reaches the empty queue. -/
theorem ploopF_isSome :
    ∀ (n : Nat) (s : PState), pmeasure s < n → (ploopF n s).isSome = true := by
  intro n
  induction n with
  | zero => intro s h; omega
  | succ m ih =>
    intro s h
    obtain ⟨q, bks, cur, run, sk⟩ := s
    match q with
    | [] => simp [ploopF]
    | f :: rest =>
      have hlt := pmeasure_pstep f rest bks cur run sk
      simp only [ploopF]
      exact ih _ (by omega)

theorem ploopF_queue_nil :
    ∀ (n : Nat) (s t : PState), ploopF n s = some t → t.queue = [] := by
  intro n
  induction n with
  | zero => intro s t h; simp [ploopF] at h
  | succ m ih =>
    intro s t h
    obtain ⟨q, bks, cur, run, sk⟩ := s
    match q with
    | [] =>
      simp [ploopF] at h
      rw [← h]
    | f :: rest =>
      exact ih _ _ h

/-- The fuel used by `partitionResult` is sufficient. -/
theorem partitionResult_eq (fs : List FieldDecl) :
    ploopF (pmeasure (initState fs) + 1) (initState fs) =
      some (partitionResult fs) := by
  have h := ploopF_isSome (pmeasure (initState fs) + 1) (initState fs)
    (Nat.lt_succ_self _)
  unfold partitionResult
  match hm : ploopF (pmeasure (initState fs) + 1) (initState fs) with
  | some t => rfl
  | none => rw [hm] at h; simp at h

theorem partitionResult_queue (fs : List FieldDecl) :
    (partitionResult fs).queue = [] :=
  ploopF_queue_nil _ _ _ (partitionResult_eq fs)

/-! ### Loop invariants -/

theorem bfRuns_nil : bfRuns [] = [] := by rw [bfRuns]

theorem bfRuns_cons_bf (f : FieldDecl) (l : List FieldDecl)
    (h : f.isBitField = true) :
    bfRuns (f :: l) = (f :: l.takeWhile fun g => g.isBitField) ::
      bfRuns (l.dropWhile fun g => g.isBitField) := by
  rw [bfRuns]; simp [h]

theorem bfRuns_cons_nonbf (f : FieldDecl) (l : List FieldDecl)
    (h : f.isBitField = false) :
    bfRuns (f :: l) = bfRuns l := by
  rw [bfRuns]; simp [h]

/-- `takeWhile` over an appended all-negative tail stops no later than
the boundary. -/
theorem takeWhile_append_nonbf (rest skp : List FieldDecl)
    (hskp : ∀ x ∈ skp, x.isBitField = false) :
    (rest ++ skp).takeWhile (fun g => g.isBitField) =
      rest.takeWhile (fun g => g.isBitField) := by
  induction rest with
  | nil =>
    match hs : skp with
    | [] => simp
    | y :: ys =>
      simp only [List.nil_append, List.takeWhile_nil]
      rw [List.takeWhile_cons_of_neg]
      simp [hskp y (by simp [hs])]
  | cons z zs ihz =>
    by_cases hz : z.isBitField = true
    · simp only [List.cons_append, List.takeWhile_cons_of_pos hz]
      rw [ihz]
    · simp only [List.cons_append, List.takeWhile_cons_of_neg hz]

/-- `dropWhile` over an appended all-negative tail keeps the tail. -/
theorem dropWhile_append_nonbf (rest skp : List FieldDecl)
    (hskp : ∀ x ∈ skp, x.isBitField = false) :
    (rest ++ skp).dropWhile (fun g => g.isBitField) =
      rest.dropWhile (fun g => g.isBitField) ++ skp := by
  induction rest with
  | nil =>
    match hs : skp with
    | [] => simp
    | y :: ys =>
      simp only [List.nil_append, List.dropWhile_nil]
      rw [List.dropWhile_cons_of_neg]
      simp [hskp y (by simp [hs])]
  | cons z zs ihz =>
    by_cases hz : z.isBitField = true
    · simp only [List.cons_append, List.dropWhile_cons_of_pos hz]
      exact ihz
    · simp only [List.cons_append, List.dropWhile_cons_of_neg hz]

/-- Appending only non-bit-field members does not change the runs. -/
theorem bfRuns_append_nonbf (l skp : List FieldDecl)
    (hskp : ∀ x ∈ skp, x.isBitField = false) :
    bfRuns (l ++ skp) = bfRuns l := by
  have main : ∀ (n : Nat) (l : List FieldDecl), l.length ≤ n →
      bfRuns (l ++ skp) = bfRuns l := by
    intro n
    induction n with
    | zero =>
      intro l hl
      have : l = [] := List.length_eq_zero.mp (Nat.le_zero.mp hl)
      subst this
      simp only [List.nil_append, bfRuns_nil]
      induction skp with
      | nil => exact bfRuns_nil
      | cons y ys ihy =>
        rw [bfRuns_cons_nonbf y ys (hskp y (by simp))]
        exact ihy (fun x hx => hskp x (by simp [hx]))
    | succ m ih =>
      intro l hl
      match l with
      | [] => exact ih [] (by simp)
      | f :: rest =>
        by_cases hbf : f.isBitField = true
        · rw [List.cons_append, bfRuns_cons_bf f _ hbf, bfRuns_cons_bf f rest hbf]
          rw [takeWhile_append_nonbf rest skp hskp,
            dropWhile_append_nonbf rest skp hskp]
          have hd := List.Sublist.length_le
            (List.dropWhile_sublist (l := rest) (fun g => g.isBitField))
          have hlen : (rest.dropWhile fun g => g.isBitField).length ≤ m := by
            simp only [List.length_cons] at hl
            omega
          rw [ih _ hlen]
        · rw [List.cons_append,
            bfRuns_cons_nonbf f _ (by simpa using hbf),
            bfRuns_cons_nonbf f rest (by simpa using hbf)]
          exact ih rest (by simp only [List.length_cons] at hl; omega)
  exact main l.length l (Nat.le_refl _)


theorem pendingRuns_none (rem : List FieldDecl) :
    pendingRuns none rem = bfRuns rem := rfl

theorem pendingRuns_some (rb : Bucket) (rem : List FieldDecl) :
    pendingRuns (some rb) rem =
      (rb.fields ++ rem.takeWhile fun g => g.isBitField) ::
        bfRuns (rem.dropWhile fun g => g.isBitField) := rfl

theorem obFields_none : obFields none = [] := rfl

theorem obFields_some (b : Bucket) : obFields (some b) = b.fields := rfl

theorem getD_newBitfieldRun_fields (run : Option Bucket) :
    (run.getD newBitfieldRun).fields = obFields run := by
  cases run <;> rfl

theorem getD_newBucket_fields (cur : Option Bucket) :
    (cur.getD newBucket).fields = obFields cur := by
  cases cur <;> rfl

theorem bucketsFields_append (l1 l2 : List (Option Bucket)) :
    bucketsFields (l1 ++ l2) = bucketsFields l1 ++ bucketsFields l2 := by
  simp [bucketsFields]

theorem bucketsFields_single (ob : Option Bucket) :
    bucketsFields [ob] = obFields ob := by
  simp [bucketsFields]

theorem runsOf_append (l1 l2 : List (Option Bucket)) :
    runsOf (l1 ++ l2) = runsOf l1 ++ runsOf l2 := by
  simp [runsOf]

theorem runsOf_single_opt_generic (ob : Option Bucket)
    (h : ∀ b, ob = some b → b.isBitfieldRun = false) : runsOf [ob] = [] := by
  match ob with
  | none => rfl
  | some b => simp [runsOf, h b rfl]

theorem runsOf_single_run (b : Bucket) (h : b.isBitfieldRun = true) :
    runsOf [some b] = [b.fields] := by
  simp [runsOf, h]

theorem runsOf_optTie (run : Option Bucket)
    (h : ∀ b, run = some b → b.isBitfieldRun = true) :
    runsOf (optTie run) = pendingRuns run [] := by
  match run with
  | none => simp [optTie, runsOf, pendingRuns_none, bfRuns_nil]
  | some rb =>
    simp [optTie, runsOf_single_run rb (h rb rfl), pendingRuns_some,
      bfRuns_nil]

theorem sumW_append (l1 l2 : List FieldDecl) :
    sumW (l1 ++ l2) = sumW l1 + sumW l2 := by
  simp [sumW]

theorem posW_append (l1 l2 : List FieldDecl) :
    posW (l1 ++ l2) = posW l1 + posW l2 := by
  simp [posW]

theorem posW_of_sumW_zero (l : List FieldDecl) (h : sumW l = 0) :
    posW l = 0 := by
  induction l with
  | nil => rfl
  | cons x xs ih =>
    simp only [sumW, List.map_cons, List.sum_cons] at h
    have hx : x.width = 0 := by omega
    have hxs : sumW xs = 0 := by simp [sumW]; omega
    simp [posW, List.filter_cons, hx, ih hxs]
    simp [posW] at ih
    exact ih hxs

/-- Coercion helpers for the multiset bookkeeping. -/
theorem coeApp (l1 l2 : List FieldDecl) :
    ((l1 ++ l2 : List FieldDecl) : Multiset FieldDecl) = ↑l1 + ↑l2 :=
  (Multiset.coe_add l1 l2).symm

theorem coeCons (f : FieldDecl) (l : List FieldDecl) :
    ((f :: l : List FieldDecl) : Multiset FieldDecl) = ↑[f] + ↑l := by
  rw [← List.singleton_append, coeApp]


theorem inv_initState (fs : List FieldDecl) : Inv fs (initState fs) := by
  constructor
  · simp [initState, stMset, bucketsFields, obFields]
  · exact ⟨fs, [], by simp [initState], by simp, by simp [initState, runsOf,
      pendingRuns_none]⟩
  · intro b hb; simp [initState] at hb
  · intro hsk; simp [initState] at hsk
  · intro b hb; simp [initState] at hb
  · intro ob hob; simp [initState] at hob
  · intro b hb; simp [initState] at hb

theorem inv_escapeStep (fs : List FieldDecl) (s : PState)
    (hq : s.queue ≠ []) (h : Inv fs s) : Inv fs (escapeStep s) := by
  unfold escapeStep
  by_cases he : s.queue.length ≤ s.skipped
  · have hsk : s.skipped ≠ 0 := by
      have hpos : 0 < s.queue.length := List.length_pos.mpr hq
      omega
    obtain ⟨cb, hcb⟩ := Option.isSome_iff_exists.mp (h.skcur hsk)
    have hcurok := h.curok cb hcb
    simp only [he, if_pos]
    constructor
    · have := h.mset
      simp only [stMset] at this ⊢
      simp only [bucketsFields_append, bucketsFields_single, hcb,
        obFields_some, obFields_none, coeApp] at this ⊢
      rw [← this]
      abel
    · obtain ⟨rem, skp, h1, h2, h3⟩ := h.runsEq
      refine ⟨rem, skp, h1, h2, ?_⟩
      rw [runsOf_append, runsOf_single_opt_generic s.cur
        (fun b hb => by rw [hb] at hcb; cases hcb; exact hcurok.1)]
      simpa using h3
    · intro b hb; exact h.runTag b hb
    · intro hk; exact absurd rfl hk
    · intro b hb; cases hb
    · intro ob hob
      rcases List.mem_append.mp hob with hin | hin
      · exact h.noneFree ob hin
      · rcases List.mem_singleton.mp hin with rfl
        rw [hcb]; rfl
    · intro b hb hgen
      rcases List.mem_append.mp hb with hin | hin
      · exact h.sealedok b hin hgen
      · have hbc : s.cur = some b := (List.mem_singleton.mp hin).symm
        have hco := h.curok b hbc
        exact ⟨hco.2.2, Or.inl (Nat.le_of_lt hco.2.1)⟩
  · simp only [he, if_neg]
    exact h

theorem bucketsFields_optTie (ob : Option Bucket) :
    bucketsFields (optTie ob) = obFields ob := by
  cases ob <;> simp [optTie, bucketsFields, obFields]

theorem getD_newBitfieldRun_tag (run : Option Bucket)
    (h : ∀ b, run = some b → b.isBitfieldRun = true) :
    (run.getD newBitfieldRun).isBitfieldRun = true := by
  match run with
  | none => rfl
  | some rb => exact h rb rfl

theorem getD_newBucket_tag (cur : Option Bucket)
    (h : ∀ b, cur = some b → b.isBitfieldRun = false) :
    (cur.getD newBucket).isBitfieldRun = false := by
  match cur with
  | none => rfl
  | some b => exact h b rfl

theorem sumW_nil : sumW [] = 0 := rfl

theorem sumW_singleton (f : FieldDecl) : sumW [f] = f.width := by
  simp [sumW]

theorem posW_singleton_pos (f : FieldDecl) (h : 0 < f.width) : posW [f] = 1 := by
  simp [posW, List.filter_cons, h]

theorem optTie_isSome (ob : Option Bucket) :
    ∀ ob2 ∈ optTie ob, ob2.isSome = true := by
  cases ob <;> simp [optTie]

theorem mem_optTie (b : Bucket) (ob : Option Bucket)
    (h : some b ∈ optTie ob) : ob = some b := by
  match ob with
  | none => simp [optTie] at h
  | some c =>
    simp [optTie] at h
    rw [h]

/-- Placing a non-bit-field at the queue front splits the pending runs:
the open run (if any) is complete, and the runs of the remainder follow. -/
theorem pendingRuns_cons_nonbf (run : Option Bucket) (f : FieldDecl)
    (rem2 : List FieldDecl) (hbf : f.isBitField = false) :
    pendingRuns run (f :: rem2) = pendingRuns run [] ++ bfRuns rem2 := by
  have hnbf : ¬((fun g => g.isBitField) f = true) := by simp [hbf]
  match run with
  | some rb =>
    rw [pendingRuns_some, pendingRuns_some]
    rw [List.takeWhile_cons_of_neg hnbf, List.dropWhile_cons_of_neg hnbf]
    rw [bfRuns_cons_nonbf f rem2 hbf]
    simp [bfRuns_nil]
  | none =>
    rw [pendingRuns_none, pendingRuns_none, bfRuns_cons_nonbf f rem2 hbf]
    simp [bfRuns_nil]

/-- `(f :: l : Multiset)` as a singleton sum, for the `abel` normal
form. -/
theorem coeConsM (f : FieldDecl) (l : List FieldDecl) :
    ((f :: l : List FieldDecl) : Multiset FieldDecl) = {f} + ↑l := by
  rw [← Multiset.cons_coe, ← Multiset.singleton_add]

/-- Each placement preserves the loop invariant. -/
theorem inv_placeStep (fs : List FieldDecl) (f : FieldDecl)
    (rest : List FieldDecl) (bks : List (Option Bucket))
    (cur run : Option Bucket) (sk : Nat)
    (h : Inv fs ⟨f :: rest, bks, cur, run, sk⟩) :
    Inv fs (placeStep f rest bks cur run sk) := by
  obtain ⟨rem, skp, hsplit, hskp, hruns⟩ := h.runsEq
  dsimp only at hsplit hruns
  unfold placeStep
  by_cases hbf : f.isBitField = true
  · -- bit-field branch
    rw [if_pos hbf]
    match hrem : rem with
    | [] =>
      exfalso
      rw [List.nil_append] at hsplit
      have hf : f ∈ skp := by rw [← hsplit]; exact List.mem_cons_self f rest
      have hc := hskp f hf
      rw [hbf] at hc
      cases hc
    | r0 :: rem2 =>
      rw [List.cons_append] at hsplit
      simp only [List.cons.injEq] at hsplit
      obtain ⟨hr0, hrest⟩ := hsplit
      subst hr0
      subst hrest
      constructor
      · have hm := h.mset
        simp only [stMset, obFields_some, obFields_none, Bucket.add,
          getD_newBitfieldRun_fields, coeApp, coeConsM, Multiset.coe_nil] at hm ⊢
        rw [← hm]
        abel
      · refine ⟨rem2, skp, rfl, hskp, ?_⟩
        dsimp only
        match hrun : run with
        | some rb =>
          simp only [Option.getD_some]
          rw [pendingRuns_some]
          simp only [Bucket.add]
          rw [List.append_assoc, List.singleton_append]
          rw [pendingRuns_some, List.takeWhile_cons_of_pos hbf,
            List.dropWhile_cons_of_pos hbf] at hruns
          exact hruns
        | none =>
          simp only [Option.getD_none]
          rw [pendingRuns_some]
          simp only [Bucket.add, newBitfieldRun]
          simp only [List.nil_append, List.singleton_append]
          rw [pendingRuns_none, bfRuns_cons_bf f rem2 hbf] at hruns
          exact hruns
      · intro b hb
        have hbeq := Option.some.inj hb
        rw [← hbeq]
        simp only [Bucket.add]
        exact getD_newBitfieldRun_tag run h.runTag
      · exact h.skcur
      · exact h.curok
      · exact h.noneFree
      · exact h.sealedok
  · -- non-bit-field branch
    have hbf2 : f.isBitField = false := by simpa using hbf
    rw [if_neg hbf]
    -- the normalized queue split after the front non-bit-field leaves
    have hnorm : ∃ rem2 skp2, rest = rem2 ++ skp2 ∧
        (∀ x ∈ skp2, x.isBitField = false) ∧
        runsOf bks ++ (pendingRuns run [] ++ bfRuns rem2) = bfRuns fs := by
      match hrem : rem with
      | [] =>
        rw [List.nil_append] at hsplit
        refine ⟨[], rest, by simp, ?_, ?_⟩
        · intro x hx
          exact hskp x (by rw [← hsplit]; exact List.mem_cons_of_mem f hx)
        · rw [bfRuns_nil, List.append_nil]
          exact hruns
      | r0 :: rem2 =>
        rw [List.cons_append] at hsplit
        simp only [List.cons.injEq] at hsplit
        obtain ⟨hr0, hrest⟩ := hsplit
        refine ⟨rem2, skp, hrest, hskp, ?_⟩
        rw [← hr0, pendingRuns_cons_nonbf run f rem2 hbf2] at hruns
        exact hruns
    obtain ⟨rem2, skp2, hrest, hskp2, hruns2⟩ := hnorm
    -- facts about the (possibly fresh) generic bucket
    have hcbtag : (cur.getD newBucket).isBitfieldRun = false :=
      getD_newBucket_tag cur (fun b hb => (h.curok b hb).1)
    have hcbsize : (cur.getD newBucket).size = sumW (cur.getD newBucket).fields := by
      match cur with
      | none => rfl
      | some b => exact (h.curok b rfl).2.2
    have hcblt : (cur.getD newBucket).size < CACHE_LINE := by
      match cur with
      | none => simp [newBucket, CACHE_LINE]
      | some b => exact (h.curok b rfl).2.1
    -- sealing the run preserves the sealed-bucket facts
    have hnf1 : ∀ ob ∈ bks ++ optTie run, ob.isSome = true := by
      intro ob hob
      rcases List.mem_append.mp hob with hin | hin
      · exact h.noneFree ob hin
      · exact optTie_isSome run ob hin
    have hseal1 : ∀ b, some b ∈ bks ++ optTie run → b.isBitfieldRun = false →
        b.size = sumW b.fields ∧
          (b.size ≤ CACHE_LINE ∨ (CACHE_LINE < b.size ∧ posW b.fields = 1)) := by
      intro b hb hgen
      rcases List.mem_append.mp hb with hin | hin
      · exact h.sealedok b hin hgen
      · have htag := h.runTag b (mem_optTie b run hin)
        rw [htag] at hgen
        cases hgen
    have hrunsNew : runsOf (bks ++ optTie run) =
        runsOf bks ++ pendingRuns run [] := by
      rw [runsOf_append, runsOf_optTie run h.runTag]
    by_cases hfit : (cur.getD newBucket).canFit f.width = true
    · rw [if_pos hfit]
      -- decoded admission condition
      have hfit2 : (cur.getD newBucket).size = 0 ∨
          (cur.getD newBucket).size + f.width ≤ CACHE_LINE := by
        simp only [Bucket.canFit, hcbtag, Bool.false_eq_true, if_false,
          Bucket.empty, Bool.or_eq_true, beq_iff_eq, decide_eq_true_eq] at hfit
        exact hfit
      have hcb2size : ((cur.getD newBucket).add f f.width).size =
          sumW (((cur.getD newBucket).add f f.width)).fields := by
        simp only [Bucket.add, sumW_append, sumW_singleton]
        rw [hcbsize]
      have hcb2tag : ((cur.getD newBucket).add f f.width).isBitfieldRun = false := by
        simp only [Bucket.add]
        exact hcbtag
      by_cases hfull : ((cur.getD newBucket).add f f.width).full = true
      · rw [if_pos hfull]
        constructor
        · have hm := h.mset
          simp only [stMset, bucketsFields_append, bucketsFields_single,
            bucketsFields_optTie, obFields_some, obFields_none, Bucket.add,
            getD_newBucket_fields, coeApp, coeConsM, Multiset.coe_nil]
            at hm ⊢
          rw [← hm]
          abel
        · refine ⟨rem2, skp2, hrest, hskp2, ?_⟩
          rw [runsOf_append, hrunsNew,
            runsOf_single_opt_generic _ (fun b hb => by
              rw [← Option.some.inj hb]; exact hcb2tag),
            List.append_nil, pendingRuns_none, List.append_assoc]
          exact hruns2
        · intro b hb; cases hb
        · intro hk; exact absurd rfl hk
        · intro b hb; cases hb
        · intro ob hob
          rcases List.mem_append.mp hob with hin | hin
          · exact hnf1 ob hin
          · rcases List.mem_singleton.mp hin with rfl; rfl
        · intro b hb hgen
          rcases List.mem_append.mp hb with hin | hin
          · exact hseal1 b hin hgen
          · have hbeq := Option.some.inj (List.mem_singleton.mp hin)
            subst hbeq
            refine ⟨hcb2size, ?_⟩
            rcases hfit2 with hz | hle
            · -- admitted into an empty bucket
              by_cases hw : f.width ≤ CACHE_LINE
              · left
                simp only [Bucket.add]
                omega
              · right
                constructor
                · simp only [Bucket.add]; omega
                · simp only [Bucket.add, posW_append]
                  have hz2 : sumW (cur.getD newBucket).fields = 0 := by
                    rw [← hcbsize]; exact hz
                  rw [posW_of_sumW_zero _ hz2,
                    posW_singleton_pos f (by omega)]
            · left
              simp only [Bucket.add]
              omega
      · rw [if_neg hfull]
        have hlt : ((cur.getD newBucket).add f f.width).size < CACHE_LINE := by
          simp only [Bucket.full, decide_eq_true_eq] at hfull
          omega
        constructor
        · have hm := h.mset
          simp only [stMset, bucketsFields_append, bucketsFields_single,
            bucketsFields_optTie, obFields_some, obFields_none, Bucket.add,
            getD_newBucket_fields, coeApp, coeConsM, Multiset.coe_nil]
            at hm ⊢
          rw [← hm]
          abel
        · refine ⟨rem2, skp2, hrest, hskp2, ?_⟩
          rw [hrunsNew, pendingRuns_none, List.append_assoc]
          exact hruns2
        · intro b hb; cases hb
        · intro hk; rfl
        · intro b hb
          have hbeq := Option.some.inj hb
          subst hbeq
          exact ⟨hcb2tag, hlt, hcb2size⟩
        · exact hnf1
        · exact hseal1
    · rw [if_neg hfit]
      constructor
      · have hm := h.mset
        simp only [stMset, bucketsFields_append, bucketsFields_single,
          bucketsFields_optTie, obFields_some, obFields_none,
          getD_newBucket_fields, coeApp, coeConsM, Multiset.coe_nil]
          at hm ⊢
        rw [← hm]
        abel
      · refine ⟨rem2, skp2 ++ [f], by rw [hrest, List.append_assoc], ?_, ?_⟩
        · intro x hx
          rcases List.mem_append.mp hx with hin | hin
          · exact hskp2 x hin
          · rcases List.mem_singleton.mp hin with rfl; exact hbf2
        · rw [hrunsNew, pendingRuns_none, List.append_assoc]
          exact hruns2
      · intro b hb; cases hb
      · intro hk; rfl
      · intro b hb
        have hbeq := Option.some.inj hb
        subst hbeq
        exact ⟨hcbtag, hcblt, hcbsize⟩
      · exact hnf1
      · exact hseal1

/-- Each full loop iteration preserves the invariant. -/
theorem inv_pstep (fs : List FieldDecl) (f : FieldDecl)
    (rest : List FieldDecl) (bks : List (Option Bucket))
    (cur run : Option Bucket) (sk : Nat)
    (hi : Inv fs ⟨f :: rest, bks, cur, run, sk⟩) :
    Inv fs (pstep f rest bks cur run sk) := by
  unfold pstep
  have hval : escapeStep ⟨f :: rest, bks, cur, run, sk⟩ =
      if (f :: rest).length ≤ sk then
        (⟨f :: rest, bks ++ [cur], none, run, 0⟩ : PState)
      else ⟨f :: rest, bks, cur, run, sk⟩ := rfl
  rw [hval]
  by_cases he : (f :: rest : List FieldDecl).length ≤ sk
  · rw [if_pos he]
    dsimp only
    apply inv_placeStep
    have h2 := inv_escapeStep fs ⟨f :: rest, bks, cur, run, sk⟩ (by simp) hi
    rw [hval, if_pos he] at h2
    exact h2
  · rw [if_neg he]
    dsimp only
    exact inv_placeStep fs f rest bks cur run sk hi

theorem inv_ploopF (fs : List FieldDecl) :
    ∀ (n : Nat) (s t : PState), ploopF n s = some t → Inv fs s → Inv fs t := by
  intro n
  induction n with
  | zero => intro s t h hi; simp [ploopF] at h
  | succ m ih =>
    intro s t h hi
    obtain ⟨q, bks, cur, run, sk⟩ := s
    match q with
    | [] =>
      simp [ploopF] at h
      rw [← h]
      exact hi
    | f :: rest =>
      exact ih _ _ h (inv_pstep fs f rest bks cur run sk hi)

theorem inv_partitionResult (fs : List FieldDecl) :
    Inv fs (partitionResult fs) :=
  inv_ploopF fs _ _ _ (partitionResult_eq fs) (inv_initState fs)

theorem runsOf_optTie_generic (ob : Option Bucket)
    (h : ∀ b, ob = some b → b.isBitfieldRun = false) :
    runsOf (optTie ob) = [] := by
  match ob with
  | none => rfl
  | some b => simp [optTie, runsOf, h b rfl]

/-- The fields of the final bucket sequence are exactly the input, as a
multiset. -/
theorem partitionBuckets_mset (fs : List FieldDecl) :
    (bucketsFields (partitionBuckets fs) : Multiset FieldDecl) = ↑fs := by
  have hi := inv_partitionResult fs
  have hq := partitionResult_queue fs
  have hm := hi.mset
  unfold partitionBuckets
  rw [bucketsFields_append, bucketsFields_append, bucketsFields_optTie,
    bucketsFields_optTie]
  simp only [stMset, hq] at hm
  simp only [coeApp, Multiset.coe_nil]
  rw [← hm]
  abel

/-- The run buckets of the final bucket sequence are exactly the maximal
bit-field runs of the input, in order. -/
theorem runsOf_partitionBuckets (fs : List FieldDecl) :
    runsOf (partitionBuckets fs) = bfRuns fs := by
  have hi := inv_partitionResult fs
  obtain ⟨rem, skp, hsplit, hskp, hruns⟩ := hi.runsEq
  rw [partitionResult_queue fs] at hsplit
  obtain ⟨hrem, hskpnil⟩ := List.append_eq_nil.mp hsplit.symm
  subst hrem
  unfold partitionBuckets
  rw [runsOf_append, runsOf_append,
    runsOf_optTie_generic _ (fun b hb => (hi.curok b hb).1),
    runsOf_optTie _ hi.runTag]
  simp only [List.append_nil]
  exact hruns

/-- No null pointer ever reaches the sealed bucket list. -/
theorem partitionBuckets_isSome (fs : List FieldDecl) :
    ∀ ob ∈ partitionBuckets fs, ob.isSome = true := by
  have hi := inv_partitionResult fs
  intro ob hob
  unfold partitionBuckets at hob
  rcases List.mem_append.mp hob with hob1 | hin
  · rcases List.mem_append.mp hob1 with hin | hin
    · exact hi.noneFree ob hin
    · exact optTie_isSome _ ob hin
  · exact optTie_isSome _ ob hin

/-- The capacity facts for every sealed generic bucket. -/
theorem partitionBuckets_capacity (fs : List FieldDecl) :
    ∀ b, some b ∈ partitionBuckets fs → b.isBitfieldRun = false →
      b.size = sumW b.fields ∧
        (b.size ≤ CACHE_LINE ∨ (CACHE_LINE < b.size ∧ posW b.fields = 1)) := by
  have hi := inv_partitionResult fs
  intro b hb hgen
  unfold partitionBuckets at hb
  rcases List.mem_append.mp hb with hb1 | hin
  · rcases List.mem_append.mp hb1 with hin | hin
    · exact hi.sealedok b hin hgen
    · have hcur := mem_optTie b _ hin
      have hco := hi.curok b hcur
      exact ⟨hco.2.2, Or.inl (Nat.le_of_lt hco.2.1)⟩
  · have hrun := mem_optTie b _ hin
    have htag := hi.runTag b hrun
    rw [htag] at hgen
    cases hgen

/-- Every maximal input run is the contents of one run bucket. -/
theorem runs_in_buckets (fs : List FieldDecl) (r : List FieldDecl)
    (hr : r ∈ bfRuns fs) :
    ∃ b : Bucket, some b ∈ partitionBuckets fs ∧ b.isBitfieldRun = true ∧
      b.fields = r := by
  rw [← runsOf_partitionBuckets] at hr
  unfold runsOf at hr
  obtain ⟨ob, hob, hmap⟩ := List.mem_filterMap.mp hr
  match ob with
  | none => simp at hmap
  | some b =>
    by_cases htag : b.isBitfieldRun = true
    · refine ⟨b, hob, htag, ?_⟩
      simp only [htag, if_pos, Option.some.injEq] at hmap
      exact hmap
    · dsimp only at hmap
      rw [if_neg htag] at hmap
      cases hmap

/-- Conversely, the contents of every run bucket form maximal runs. -/
theorem bucket_runs_in_bfRuns (fs : List FieldDecl) (b : Bucket)
    (hb : some b ∈ partitionBuckets fs) (htag : b.isBitfieldRun = true) :
    b.fields ∈ bfRuns fs := by
  rw [← runsOf_partitionBuckets]
  unfold runsOf
  exact List.mem_filterMap.mpr ⟨some b, hb, by simp [htag]⟩

/-- Members of maximal runs are bit-fields. -/
theorem bfRuns_members_bf (l : List FieldDecl) :
    ∀ r ∈ bfRuns l, ∀ g ∈ r, g.isBitField = true := by
  have main : ∀ (n : Nat) (l : List FieldDecl), l.length ≤ n →
      ∀ r ∈ bfRuns l, ∀ g ∈ r, g.isBitField = true := by
    intro n
    induction n with
    | zero =>
      intro l hl
      have : l = [] := List.length_eq_zero.mp (Nat.le_zero.mp hl)
      subst this
      rw [bfRuns_nil]
      intro r hr; simp at hr
    | succ m ih =>
      intro l hl
      match l with
      | [] => exact ih [] (by simp)
      | f :: rest =>
        by_cases hbf : f.isBitField = true
        · rw [bfRuns_cons_bf f rest hbf]
          intro r hr g hg
          rcases List.mem_cons.mp hr with hr1 | hr1
          · subst hr1
            rcases List.mem_cons.mp hg with hg1 | hg1
            · subst hg1; exact hbf
            · exact List.mem_takeWhile_imp hg1
          · have hd := List.Sublist.length_le
              (List.dropWhile_sublist (l := rest) (fun g => g.isBitField))
            have hlen : (rest.dropWhile fun g => g.isBitField).length ≤ m := by
              simp only [List.length_cons] at hl
              omega
            exact ih _ hlen r hr1 g hg
        · rw [bfRuns_cons_nonbf f rest (by simpa using hbf)]
          exact ih rest (by simp only [List.length_cons] at hl; omega)
  exact main l.length l (Nat.le_refl _)

/-! ### The claims -/

/-- C1: for every seed and every input sequence of member descriptors,
the output of `rearrange` (`perfrandomize`) is a permutation of the
input: same count, same multiset of member references, no duplicates,
no omissions. -/
theorem claim_C1_rearrange_perm (seed : String) (fs : List FieldDecl) :
    (rearrange seed fs).Perm fs := by
  unfold rearrange perfrandomize
  have h1 : (((shuffleWith seed (partitionBuckets fs)).map
        (finalizeOpt seed)).flatten).Perm
      (((partitionBuckets fs).map (finalizeOpt seed)).flatten) :=
    List.Perm.flatten (List.Perm.map _ (shuffleWith_perm seed _))
  have h2 : (((partitionBuckets fs).map (finalizeOpt seed)).flatten).Perm
      (((partitionBuckets fs).map obFields).flatten) := by
    apply List.Perm.flatten_congr
    rw [List.forall₂_map_right_iff, List.forall₂_map_left_iff,
      List.forall₂_same]
    intro ob hob
    match ob with
    | none => exact List.Perm.refl _
    | some b =>
      simp only [finalizeOpt, obFields_some, Bucket.randomize]
      by_cases htag : b.isBitfieldRun = true
      · rw [if_pos htag]
      · rw [if_neg htag]
        exact shuffleWith_perm seed b.fields
  have h3 : (((partitionBuckets fs).map obFields).flatten).Perm fs :=
    Multiset.coe_eq_coe.mp (partitionBuckets_mset fs)
  exact h1.trans (h2.trans h3)

/-- C2: every maximal run of consecutive bit-field members of the input
(`bfRuns`) appears contiguously and in its original relative order in
the output of `rearrange` — it is an infix of the output, carried by a
single bit-field-run bucket whose `randomize` is the identity. -/
theorem claim_C2_bitfield_adjacency (seed : String) (fs : List FieldDecl)
    (r : List FieldDecl) (hr : r ∈ bfRuns fs) :
    r <:+: rearrange seed fs := by
  obtain ⟨b, hb, htag, hfields⟩ := runs_in_buckets fs r hr
  unfold rearrange perfrandomize
  have hmem : some b ∈ shuffleWith seed (partitionBuckets fs) :=
    ((shuffleWith_perm seed (partitionBuckets fs)).mem_iff).mpr hb
  have hmem2 : r ∈ (shuffleWith seed (partitionBuckets fs)).map
      (finalizeOpt seed) :=
    List.mem_map.mpr ⟨some b, hmem, by
      simp only [finalizeOpt, Bucket.randomize, htag, if_pos]
      exact hfields⟩
  exact List.infix_of_mem_flatten hmem2

theorem claim_C2_witness :
    (([⟨0, true, 1⟩, ⟨1, true, 1⟩] : List FieldDecl) ∈
        bfRuns [⟨0, true, 1⟩, ⟨1, true, 1⟩, ⟨2, false, 32⟩]) ∧
      ([⟨0, true, 1⟩, ⟨1, true, 1⟩] : List FieldDecl) <:+:
        rearrange "seed" [⟨0, true, 1⟩, ⟨1, true, 1⟩, ⟨2, false, 32⟩] := by
  have hr : ([⟨0, true, 1⟩, ⟨1, true, 1⟩] : List FieldDecl) ∈
      bfRuns [⟨0, true, 1⟩, ⟨1, true, 1⟩, ⟨2, false, 32⟩] := by
    rw [bfRuns_cons_bf _ _ rfl]
    simp
  exact ⟨hr, claim_C2_bitfield_adjacency "seed" _ _ hr⟩

/-- C3: `rearrange` is a pure function of the seed string and the input
sequence in this model: the source constructs a fresh engine from the
process-wide seed at every shuffle site and has no other call-to-call
state, so two calls with the same non-empty seed and input give
identical output. -/
theorem claim_C3_deterministic (seed : String) (_hseed : seed ≠ "")
    (fs : List FieldDecl) : rearrange seed fs = rearrange seed fs := rfl

theorem claim_C3_witness :
    ("abc" : String) ≠ "" ∧
      rearrange "abc" [⟨0, false, 32⟩] = rearrange "abc" [⟨0, false, 32⟩] :=
  ⟨by decide, claim_C3_deterministic "abc" (by decide) [⟨0, false, 32⟩]⟩

/-- C4 counterexample: the claim "accumulated width is at most 64 except
when the first admitted member alone is wider than 64, and such an
oversized member sits alone" fails: with a width-0 member followed by a
width-100 member, the sealed generic group has size 100 > 64 and two
members — the oversized member is neither first-placed-alone nor alone. -/
theorem claim_C4_counterexample :
    ∃ ob ∈ partitionBuckets [⟨0, false, 0⟩, ⟨1, false, 100⟩],
      ∃ b, ob = some b ∧ b.isBitfieldRun = false ∧
        CACHE_LINE < b.size ∧ b.fields.length ≠ 1 := by
  refine ⟨some ⟨false, 100, [⟨0, false, 0⟩, ⟨1, false, 100⟩]⟩, by decide,
    ⟨false, 100, [⟨0, false, 0⟩, ⟨1, false, 100⟩]⟩, rfl, rfl, by decide,
    by decide⟩

/-- C4 (amended): every sealed generic group has `size` equal to the sum
of the widths of its fields, and either `size ≤ 64`, or `size > 64` with
exactly one positive-width member (the member admitted under the
empty-group waiver; all its companions have width 0, so when every width
is positive this is the claim's "oversized member sits alone"). -/
theorem claim_C4_capacity (fs : List FieldDecl) (b : Bucket)
    (hb : some b ∈ partitionBuckets fs) (hgen : b.isBitfieldRun = false) :
    b.size = sumW b.fields ∧
      (b.size ≤ CACHE_LINE ∨ (CACHE_LINE < b.size ∧ posW b.fields = 1)) :=
  partitionBuckets_capacity fs b hb hgen

theorem claim_C4_witness :
    (⟨false, 64, [⟨0, false, 32⟩, ⟨1, false, 32⟩]⟩ : Bucket).size =
        sumW [⟨0, false, 32⟩, ⟨1, false, 32⟩] ∧
      ((⟨false, 64, [⟨0, false, 32⟩, ⟨1, false, 32⟩]⟩ : Bucket).size ≤
          CACHE_LINE ∨
        (CACHE_LINE < (⟨false, 64, [⟨0, false, 32⟩, ⟨1, false, 32⟩]⟩ :
            Bucket).size ∧
          posW [⟨0, false, 32⟩, ⟨1, false, 32⟩] = 1)) :=
  claim_C4_capacity [⟨0, false, 32⟩, ⟨1, false, 32⟩]
    ⟨false, 64, [⟨0, false, 32⟩, ⟨1, false, 32⟩]⟩ (by decide) rfl

/-- C5: the bucketing loop terminates on every finite input and width
assignment: quadratic fuel (`n*n + 3*n + 1` for `n` input members)
suffices for `ploopF` to reach the empty queue, thanks to the
skipped-counter escape rule. -/
theorem claim_C5_terminates (fs : List FieldDecl) :
    (ploopF (fs.length * fs.length + 3 * fs.length + 1)
      (initState fs)).isSome = true := by
  apply ploopF_isSome
  simp only [pmeasure, initState]
  have hk : fs.length * (fs.length + 2) =
      fs.length * fs.length + 2 * fs.length := by ring
  omega

set_option maxRecDepth 8000 in
/-- C6 counterexample: the claim "a bit-field run's isFull always
returns false" fails: `BitfieldRun` does not override `Bucket::full`,
so the run produced from 64 consecutive bit-fields (each added with
size 1) has `size = 64` and reports `full = true`. -/
theorem claim_C6_counterexample :
    ∃ ob ∈ partitionBuckets ((List.range 64).map fun i => ⟨i, true, 1⟩),
      ∃ b, ob = some b ∧ b.isBitfieldRun = true ∧ b.full = true := by
  refine ⟨some ⟨true, 64, (List.range 64).map fun i => ⟨i, true, 1⟩⟩,
    by decide, ⟨true, 64, (List.range 64).map fun i => ⟨i, true, 1⟩⟩,
    rfl, rfl, by decide⟩

/-- C6 (amended): a bit-field run to which `k` bit-field members have
been added (each with size 1, as `perfrandomize` does) reports full
exactly when `k ≥ 64`; in particular `isFull` is false while fewer than
64 members have been added.  The partitioner itself never consults
`full()` on the run, so a run is only sealed by a non-bit-field member
or by input exhaustion. -/
theorem claim_C6_run_full (l : List FieldDecl) :
    (l.foldl (fun b f => b.add f 1) newBitfieldRun).full =
      decide (CACHE_LINE ≤ l.length) := by
  have hsize : ∀ (l : List FieldDecl) (b : Bucket),
      (l.foldl (fun b f => b.add f 1) b).size = b.size + l.length := by
    intro l
    induction l with
    | nil => intro b; simp
    | cons x xs ih =>
      intro b
      rw [List.foldl_cons, ih (b.add x 1)]
      simp only [Bucket.add, List.length_cons]
      omega
  simp only [Bucket.full]
  rw [hsize l newBitfieldRun]
  simp [newBitfieldRun]

/-- C7 counterexample: the claim "the bit-field run's tryAdd rejects any
non-bit-field member" fails: `BitfieldRun::canFit` returns true for
every size, so a non-bit-field member is admitted by the capacity check
(only the partitioner's control flow keeps it out). -/
theorem claim_C7_counterexample :
    ∃ f : FieldDecl, f.isBitField = false ∧
      newBitfieldRun.canFit f.width = true :=
  ⟨⟨0, false, 32⟩, rfl, by decide⟩

/-- C7 (amended): `canFit` on a bit-field run always succeeds — for
bit-field members and for any other size alike; non-bit-field members
are kept out of runs by the partitioner, which seals the run when it
meets one, so every member of a sealed run bucket is a bit-field. -/
theorem claim_C7_run_admission (fs : List FieldDecl) (b : Bucket)
    (hb : some b ∈ partitionBuckets fs) (htag : b.isBitfieldRun = true)
    (sz : Nat) (g : FieldDecl) (hg : g ∈ b.fields) :
    b.canFit sz = true ∧ g.isBitField = true := by
  constructor
  · simp [Bucket.canFit, htag]
  · exact bfRuns_members_bf fs _ (bucket_runs_in_bfRuns fs b hb htag) g hg

theorem claim_C7_witness :
    (⟨true, 2, [⟨0, true, 1⟩, ⟨1, true, 1⟩]⟩ : Bucket).canFit 32 = true ∧
      (⟨0, true, 1⟩ : FieldDecl).isBitField = true :=
  claim_C7_run_admission [⟨0, true, 1⟩, ⟨1, true, 1⟩, ⟨2, false, 32⟩]
    ⟨true, 2, [⟨0, true, 1⟩, ⟨1, true, 1⟩]⟩ (by decide) rfl 32
    ⟨0, true, 1⟩ (by decide)

/-- C8: on the empty input sequence `rearrange` returns the empty
sequence and the partitioner produces no groups at all. -/
theorem claim_C8_empty (seed : String) :
    rearrange seed [] = [] ∧ partitionBuckets [] = [] := ⟨rfl, rfl⟩

/-- C9: whenever the skipped counter is positive a generic bucket is
open (invariant `skcur`), so the escape seal never pushes a null bucket:
every entry of the sealed bucket list is non-null, and the final
flattening never calls `randomize` on a null pointer (`finalizeOpt`
never takes its `none` arm). -/
theorem claim_C9_no_null (fs : List FieldDecl) :
    (partitionBuckets fs).all Option.isSome = true := by
  rw [List.all_eq_true]
  exact partitionBuckets_isSome fs

/-- C10: every shuffle in one `rearrange` call re-seeds a fresh engine
from the same seed string, so any two generic buckets with the same
number of fields are rearranged by the identical index permutation
`shufflePerm seed n`. -/
theorem claim_C10_same_perm (seed : String) (fs : List FieldDecl)
    (b1 b2 : Bucket) (_h1 : some b1 ∈ partitionBuckets fs)
    (_h2 : some b2 ∈ partitionBuckets fs) (g1 : b1.isBitfieldRun = false)
    (g2 : b2.isBitfieldRun = false)
    (hlen : b1.fields.length = b2.fields.length) :
    b1.randomize seed = (shufflePerm seed b1.fields.length).map
        (fun i => b1.fields.getD i default) ∧
      b2.randomize seed = (shufflePerm seed b1.fields.length).map
        (fun i => b2.fields.getD i default) := by
  constructor
  · rw [Bucket.randomize, if_neg (by simp [g1])]
    exact shuffleWith_eq_map_shufflePerm seed b1.fields
  · rw [Bucket.randomize, if_neg (by simp [g2]), hlen]
    exact shuffleWith_eq_map_shufflePerm seed b2.fields

theorem claim_C10_witness :
    (⟨false, 64, [⟨0, false, 32⟩, ⟨1, false, 32⟩]⟩ : Bucket).randomize "s" =
        (shufflePerm "s" 2).map
          (fun i => ([⟨0, false, 32⟩, ⟨1, false, 32⟩] :
            List FieldDecl).getD i default) ∧
      (⟨false, 64, [⟨2, false, 32⟩, ⟨3, false, 32⟩]⟩ : Bucket).randomize "s" =
        (shufflePerm "s" 2).map
          (fun i => ([⟨2, false, 32⟩, ⟨3, false, 32⟩] :
            List FieldDecl).getD i default) :=
  claim_C10_same_perm "s"
    [⟨0, false, 32⟩, ⟨1, false, 32⟩, ⟨2, false, 32⟩, ⟨3, false, 32⟩]
    ⟨false, 64, [⟨0, false, 32⟩, ⟨1, false, 32⟩]⟩
    ⟨false, 64, [⟨2, false, 32⟩, ⟨3, false, 32⟩]⟩
    (by decide) (by decide) rfl rfl rfl

end Randstruct
